import Mathlib

/-!
Shallow embedding of `src/tools/upgrade_tool.py`.

Files are modelled as strings, the filesystem as a flat association list
from path to content.  The two `re.sub` calls of the script are embedded as
deterministic left-to-right scanners (both patterns are backtracking-free:
every greedy class in them is followed by a character that the class cannot
match).  External commands (`git`, `scons`) are modelled by boolean oracles
recording whether each invocation succeeded, and `os.walk` by the list of
`(dirpath, filenames)` pairs it yields, in traversal order.
-/

namespace UpgradeTool

/-- Python `str` whitespace in the ASCII range, as used by `str.strip` and by
the regular-expression class `\s` (Unicode whitespace beyond ASCII is not
modelled; none of the files involved contain it). -/
def isPySpace (c : Char) : Bool :=
  c = ' ' || c = '\t' || c = '\n' || c = '\r' || c = '\x0b' || c = '\x0c'

/-- Python `str.strip()`: remove leading and trailing whitespace. -/
def pyStrip (s : String) : String :=
  ⟨((s.data.dropWhile isPySpace).reverse.dropWhile isPySpace).reverse⟩

/-- Python `str.lower()` restricted to ASCII letters. -/
def lowerChar (c : Char) : Char :=
  if 'A' ≤ c ∧ c ≤ 'Z' then Char.ofNat (c.toNat + 32) else c

/-- Python `str.lower()` (ASCII range). -/
def pyLower (s : String) : String := ⟨s.data.map lowerChar⟩

/-- Helper for `pyReadlines`: split into lines, each keeping its trailing
newline; `acc` holds the current line, reversed. -/
def splitKeepNl : List Char → List Char → List (List Char)
  | acc, [] => if acc.isEmpty then [] else [acc.reverse]
  | acc, c :: cs =>
    if c = '\n' then (acc.reverse ++ [c]) :: splitKeepNl [] cs
    else splitKeepNl (c :: acc) cs

/-- Python `file.readlines()`: the lines of the content, each keeping its
terminating newline; a last line without a newline is kept as is. -/
def pyReadlines (s : String) : List String :=
  (splitKeepNl [] s.data).map (fun l => ⟨l⟩)

/-- Python `needle in hay` on strings: substring containment. -/
def strContains (hay needle : String) : Bool :=
  hay.data.tails.any (fun t => needle.data.isPrefixOf t)

/-- Python `s.endswith(sfx)`. -/
def strEndsWith (s sfx : String) : Bool :=
  sfx.data.reverse.isPrefixOf s.data.reverse

/-- Flat filesystem: an association list from path to file content. -/
abbrev FS := List (String × String)

/-- Models `open(path).read()` on a present file, `None` when the open would
raise `FileNotFoundError`; `(fs.read p).isSome` also models `os.path.isfile`. -/
def FS.read : FS → String → Option String
  | [], _ => none
  | (q, d) :: rest, p => if q = p then some d else FS.read rest p

/-- Models `open(path, "w")` followed by writing `c`: replace the content if
the path is present, create the file otherwise. -/
def FS.write : FS → String → String → FS
  | [], p, c => [(p, c)]
  | (q, d) :: rest, p, c =>
    if q = p then (p, c) :: rest else (q, d) :: FS.write rest p c

/-- Consume an exact literal at the head of the input, returning the rest. -/
def dropLit : List Char → List Char → Option (List Char)
  | [], cs => some cs
  | _ :: _, [] => none
  | l :: ls, c :: cs => if c = l then dropLit ls cs else none

/-- Core of `re.sub`: scan left to right; at each position either replace a
match (continuing after it) or keep the character.  `fuel` bounds the
recursion and is instantiated with the input length; a matcher consumes at
least one character whenever it succeeds, so that much fuel suffices. -/
def subAll (m : List Char → Option (List Char × List Char)) :
    Nat → List Char → List Char
  | 0, cs => cs
  | _ + 1, [] => []
  | fuel + 1, c :: cs =>
    match m (c :: cs) with
    | some (r, rest) => r ++ subAll m fuel rest
    | none => c :: subAll m fuel cs

/-- `re.sub` with a deterministic matcher, run with exactly enough fuel. -/
def subRun (m : List Char → Option (List Char × List Char))
    (cs : List Char) : List Char :=
  subAll m cs.length cs

/-- Require a specific character at the head of the input, returning the
rest. -/
def expectChar (c : Char) : List Char → Option (List Char)
  | [] => none
  | x :: xs => if x = c then some xs else none

/-- Matcher for `compatibility_minimum\s*=\s*"[^"]*"` as used in
`update_gdextension`, paired with its replacement
`compatibility_minimum = "<compat>"` (note: the replacement is a fixed string,
so whitespace of the match around `=` is not kept). -/
def matchCompat (compat : List Char) (cs : List Char) :
    Option (List Char × List Char) :=
  (dropLit "compatibility_minimum".data cs).bind fun r1 =>
    (expectChar '=' (r1.dropWhile isPySpace)).bind fun r3 =>
      (expectChar '"' (r3.dropWhile isPySpace)).bind fun r5 =>
        (expectChar '"' (r5.dropWhile (fun c => !(c = '"')))).bind fun r7 =>
          some ("compatibility_minimum = \"".data ++ compat ++ ['"'], r7)

/-- Matcher for `(branch\s*=\s*)\S+` as used in `update_gitmodules`, paired
with its replacement `\g<1>master` (the whitespace captured by group 1 is
kept verbatim; `\S+` needs a nonempty run of non-whitespace right after the
greedy `\s*`, so the value starts at the first non-whitespace character). -/
def matchBranch (cs : List Char) : Option (List Char × List Char) :=
  (dropLit "branch".data cs).bind fun r1 =>
    (expectChar '=' (r1.dropWhile isPySpace)).bind fun r3 =>
      match r3.dropWhile isPySpace with
      | [] => none
      | c :: r5 =>
        some ("branch".data ++ r1.takeWhile isPySpace ++
                '=' :: r3.takeWhile isPySpace ++ "master".data,
              (c :: r5).dropWhile (fun x => !isPySpace x))

/-- The `re.sub` call of `update_gdextension` as a pure string transform. -/
def pySubCompat (compat content : String) : String :=
  ⟨subRun (matchCompat compat.data) content.data⟩

/-- The `re.sub` call of `update_gitmodules` as a pure string transform. -/
def pySubBranch (content : String) : String :=
  ⟨subRun matchBranch content.data⟩

/-- `update_gitmodules`: read the file (warn and skip when absent), replace
every `branch = <value>` by `branch = master`, write back. -/
def update_gitmodules (fs : FS) (path : String) : FS :=
  match fs.read path with
  | none => fs
  | some content => fs.write path (pySubBranch content)

/-- `update_dont_touch`: read the file (absent: warn, return `None`); with
fewer than two lines warn and return the stripped first line when one exists;
otherwise overwrite line 2 with `newVersion + "\n"`, write back, and return
the stripped, lower-cased first line. -/
def update_dont_touch (fs : FS) (path : String) (newVersion : String) :
    FS × Option String :=
  match fs.read path with
  | none => (fs, none)
  | some content =>
    let lines := pyReadlines content
    if lines.length < 2 then
      (fs, match lines with
           | [] => none
           | l :: _ => some (pyStrip l))
    else
      (fs.write path (String.join (lines.set 1 (newVersion ++ "\n"))),
       some (pyLower (pyStrip (lines.headD ""))))

/-- The recursive-fallback loop of `update_gdextension` over the pairs
`(dirpath, filenames)` yielded by `os.walk`: skip any dirpath containing
`"godot-cpp"` as a substring, otherwise take the first file of the directory
whose name ends with `.gdextension`. -/
def walkFind : List (String × List String) → Option String
  | [] => none
  | (r, files) :: rest =>
    if strContains r "godot-cpp" then walkFind rest
    else
      match files.find? (fun f => strEndsWith f ".gdextension") with
      | some f => some (r ++ "/" ++ f)
      | none => walkFind rest

/-- Manifest location in `update_gdextension`: the two fixed candidates in
order, then the recursive walk as fallback. -/
def locateGdext (fs : FS) (walk : List (String × List String))
    (root name : String) : Option String :=
  match [root ++ "/test_project/" ++ name ++ "/" ++ name ++ ".gdextension",
         root ++ "/" ++ name ++ "/" ++ name ++ ".gdextension"].find?
          (fun c => (fs.read c).isSome) with
  | some c => some c
  | none => walkFind walk

/-- `update_gdextension`: locate the manifest (warn and skip when none is
found), rewrite its `compatibility_minimum` key, write back.  A located path
always denotes a readable file on a real filesystem; the impossible
read-failure case leaves the filesystem unchanged. -/
def update_gdextension (fs : FS) (walk : List (String × List String))
    (root name compat : String) : FS :=
  match locateGdext fs walk root name with
  | none => fs
  | some p =>
    match fs.read p with
    | none => fs
    | some content => fs.write p (pySubCompat compat content)

/-- Python truthiness of the `plugin_name` value guarding the manifest step:
`None` and the empty string are falsy. -/
def pyTruthy : Option String → Bool
  | none => false
  | some s => if s = "" then false else true

/-- The file-editing tail of `main`: `update_gitmodules`, then
`update_dont_touch` with the hardcoded version `"4.6"`, then — only when the
returned plugin name is truthy — `update_gdextension` with the `--min`
value. -/
def mainSteps (fs : FS) (walk : List (String × List String))
    (root compat : String) : FS :=
  let fs1 := update_gitmodules fs (root ++ "/.gitmodules")
  let res := update_dont_touch fs1 (root ++ "/dont_touch.txt") "4.6"
  if pyTruthy res.2 then
    update_gdextension res.1 walk root (res.2.getD "") compat
  else
    res.1

/-- Oracle for the external commands and checks of `main`: whether the root
is a directory, whether the submodule's `.git` marker exists, and the exit
status of each external invocation. -/
structure CmdEnv where
  isdirRoot : Bool
  gitMarkerPresent : Bool
  initOk : Bool
  fetchOk : Bool
  checkoutOk : Bool
  pullOk : Bool
  syncOk : Bool
  cleanOk : Bool

/-- `main` as exit code and resulting filesystem: exit 1 before any file edit
when the root is not a directory, when the submodule needs initialising and
`git submodule update --init --recursive` fails, or when
`git checkout -B master origin/master` fails; fetch, pull, sync and clean
failures only warn, so they influence neither the exit code nor the edits. -/
def mainRun (e : CmdEnv) (fs : FS) (walk : List (String × List String))
    (root compat : String) : Nat × FS :=
  if !e.isdirRoot then (1, fs)
  else if !e.gitMarkerPresent && !e.initOk then (1, fs)
  else if !e.checkoutOk then (1, fs)
  else (0, mainSteps fs walk root compat)

/-- Exit code of the whole process: the `KeyboardInterrupt` handler turns a
user interruption into exit 0; otherwise the code of `mainRun` stands. -/
def processExit (interrupted : Bool) (e : CmdEnv) (fs : FS)
    (walk : List (String × List String)) (root compat : String) : Nat :=
  if interrupted then 0 else (mainRun e fs walk root compat).1

/-! Helper lemmas about the scanners. -/

theorem dropLit_self : ∀ (lit cs : List Char), dropLit lit (lit ++ cs) = some cs := by
  intro lit
  induction lit with
  | nil => intro cs; rfl
  | cons l ls ih => intro cs; simp [dropLit, ih]

theorem dropLit_length_le :
    ∀ (lit cs r : List Char), dropLit lit cs = some r → r.length ≤ cs.length := by
  intro lit
  induction lit with
  | nil =>
    intro cs r h
    simp only [dropLit, Option.some.injEq] at h
    subst h; exact le_rfl
  | cons l ls ih =>
    intro cs r h
    cases cs with
    | nil => cases h
    | cons c cs' =>
      simp only [dropLit] at h
      split at h
      · have := ih cs' r h
        simp only [List.length_cons]
        omega
      · cases h

theorem expectChar_self (c : Char) (cs : List Char) :
    expectChar c (c :: cs) = some cs := by
  simp [expectChar]

theorem expectChar_length_le (c : Char) :
    ∀ (cs r : List Char), expectChar c cs = some r → r.length + 1 = cs.length := by
  intro cs r h
  cases cs with
  | nil => cases h
  | cons x xs =>
    simp only [expectChar] at h
    split at h
    · simp only [Option.some.injEq] at h
      subst h; simp
    · cases h

theorem dropWhile_length_le (p : Char → Bool) :
    ∀ l : List Char, (l.dropWhile p).length ≤ l.length := by
  intro l
  induction l with
  | nil => simp
  | cons c cs ih =>
    by_cases h : p c
    · simp only [List.dropWhile, h, if_true, List.length_cons]
      omega
    · simp [List.dropWhile, h]

theorem dropWhile_app (p : Char → Bool) :
    ∀ (w t : List Char), (∀ c ∈ w, p c = true) →
      (∀ c, t.head? = some c → p c = false) → (w ++ t).dropWhile p = t := by
  intro w
  induction w with
  | nil =>
    intro t _ ht
    cases t with
    | nil => rfl
    | cons c cs => simp [List.dropWhile, ht c rfl]
  | cons a as ih =>
    intro t hw ht
    have ha := hw a (by simp)
    simp only [List.cons_append, List.dropWhile, ha]
    exact ih t (fun c hc => hw c (by simp [hc])) ht

theorem takeWhile_app (p : Char → Bool) :
    ∀ (w t : List Char), (∀ c ∈ w, p c = true) →
      (∀ c, t.head? = some c → p c = false) → (w ++ t).takeWhile p = w := by
  intro w
  induction w with
  | nil =>
    intro t _ ht
    cases t with
    | nil => rfl
    | cons c cs => simp [List.takeWhile, ht c rfl]
  | cons a as ih =>
    intro t hw ht
    have ha := hw a (by simp)
    simp only [List.cons_append, List.takeWhile, ha]
    exact congrArg (a :: ·) (ih t (fun c hc => hw c (by simp [hc])) ht)

/-- A matcher that consumes at least one character whenever it succeeds. -/
def Consuming (m : List Char → Option (List Char × List Char)) : Prop :=
  ∀ c cs r rest, m (c :: cs) = some (r, rest) → rest.length ≤ cs.length

/-- With enough fuel, `subAll` does not depend on the exact fuel value. -/
theorem subAll_fuel (m : List Char → Option (List Char × List Char))
    (hm : Consuming m) :
    ∀ (n : Nat) (cs : List Char) (fuel₁ fuel₂ : Nat), cs.length ≤ n →
      cs.length ≤ fuel₁ → cs.length ≤ fuel₂ →
      subAll m fuel₁ cs = subAll m fuel₂ cs := by
  intro n
  induction n with
  | zero =>
    intro cs fuel₁ fuel₂ hn _ _
    have : cs = [] := List.eq_nil_of_length_eq_zero (Nat.le_zero.mp hn)
    subst this
    cases fuel₁ <;> cases fuel₂ <;> rfl
  | succ n ih =>
    intro cs fuel₁ fuel₂ hn h1 h2
    cases cs with
    | nil => cases fuel₁ <;> cases fuel₂ <;> rfl
    | cons c cs' =>
      simp only [List.length_cons] at hn h1 h2
      cases fuel₁ with
      | zero => omega
      | succ f₁ =>
        cases fuel₂ with
        | zero => omega
        | succ f₂ =>
          simp only [subAll]
          cases h : m (c :: cs') with
          | none =>
            have := ih cs' f₁ f₂ (by omega) (by omega) (by omega)
            simp [this]
          | some pr =>
            obtain ⟨r, rest⟩ := pr
            have hc := hm c cs' r rest h
            have := ih rest f₁ f₂ (by omega) (by omega) (by omega)
            simp [this]

theorem subAll_eq_subRun (m : List Char → Option (List Char × List Char))
    (hm : Consuming m) (cs : List Char) (fuel : Nat) (h : cs.length ≤ fuel) :
    subAll m fuel cs = subRun m cs :=
  subAll_fuel m hm cs.length cs fuel cs.length le_rfl h le_rfl

theorem subRun_nil (m : List Char → Option (List Char × List Char)) :
    subRun m [] = [] := rfl

theorem subRun_cons_none (m : List Char → Option (List Char × List Char))
    (c : Char) (cs : List Char) (h : m (c :: cs) = none) :
    subRun m (c :: cs) = c :: subRun m cs := by
  simp only [subRun, List.length_cons, subAll, h]

theorem subRun_cons_some (m : List Char → Option (List Char × List Char))
    (hm : Consuming m) (c : Char) (cs r rest : List Char)
    (h : m (c :: cs) = some (r, rest)) :
    subRun m (c :: cs) = r ++ subRun m rest := by
  have hlen := hm c cs r rest h
  simp only [subRun, List.length_cons, subAll, h]
  exact congrArg (r ++ ·) (subAll_eq_subRun m hm rest cs.length hlen)

/-- A successful `dropLit` means the literal is a prefix of the input. -/
theorem dropLit_isPrefixOf :
    ∀ (lit cs r : List Char), dropLit lit cs = some r → lit.isPrefixOf cs = true := by
  intro lit
  induction lit with
  | nil =>
    intro cs r _
    cases cs with
    | nil => rfl
    | cons c cs' => rfl
  | cons l ls ih =>
    intro cs r h
    cases cs with
    | nil => cases h
    | cons c cs' =>
      simp only [dropLit] at h
      split at h
      next heq =>
        simp only [List.isPrefixOf, Bool.and_eq_true, beq_iff_eq]
        exact ⟨heq.symm, ih cs' r h⟩
      next => cases h

/-- Scanning past a stretch in which no occurrence of the matcher's key
literal starts: the matcher fails at every position there, so each character
is kept. -/
theorem subRun_append_skip_occ (m : List Char → Option (List Char × List Char))
    (key : List Char)
    (hkey : ∀ cs r rest, m cs = some (r, rest) → key.isPrefixOf cs = true) :
    ∀ (pre rest : List Char),
      (∀ i < pre.length, key.isPrefixOf ((pre ++ rest).drop i) = false) →
      subRun m (pre ++ rest) = pre ++ subRun m rest := by
  intro pre
  induction pre with
  | nil => intro rest _; simp
  | cons p ps ih =>
    intro rest hpre
    have h0 : key.isPrefixOf (p :: (ps ++ rest)) = false := by
      have := hpre 0 (by simp)
      simpa using this
    have hnone : m (p :: (ps ++ rest)) = none := by
      cases hm : m (p :: (ps ++ rest)) with
      | none => rfl
      | some pr =>
        obtain ⟨r, rest'⟩ := pr
        rw [hkey _ _ _ hm] at h0
        cases h0
    have hstep := subRun_cons_none m p (ps ++ rest) hnone
    have hrec : subRun m (ps ++ rest) = ps ++ subRun m rest := by
      apply ih
      intro i hi
      have h := hpre (i + 1) (by simp; omega)
      simpa using h
    rw [List.cons_append, hstep, hrec]
    rfl

/-! Lemmas specific to the two matchers. -/

/-- A successful `matchCompat` starts with the key literal. -/
theorem matchCompat_starts_key (compat : List Char) :
    ∀ (cs r rest : List Char), matchCompat compat cs = some (r, rest) →
      "compatibility_minimum".data.isPrefixOf cs = true := by
  intro cs r rest h
  simp only [matchCompat] at h
  cases h1 : dropLit "compatibility_minimum".data cs with
  | none => rw [h1] at h; cases h
  | some r1 => exact dropLit_isPrefixOf _ _ _ h1

/-- A successful `matchBranch` starts with the key literal. -/
theorem matchBranch_starts_key :
    ∀ (cs r rest : List Char), matchBranch cs = some (r, rest) →
      "branch".data.isPrefixOf cs = true := by
  intro cs r rest h
  simp only [matchBranch] at h
  cases h1 : dropLit "branch".data cs with
  | none => rw [h1] at h; cases h
  | some r1 => exact dropLit_isPrefixOf _ _ _ h1

theorem matchCompat_success (compat w1 w2 v post : List Char)
    (hw1 : ∀ c ∈ w1, isPySpace c = true) (hw2 : ∀ c ∈ w2, isPySpace c = true)
    (hv : ∀ c ∈ v, c ≠ '"') :
    matchCompat compat
        ("compatibility_minimum".data ++ (w1 ++ '=' :: (w2 ++ '"' :: (v ++ '"' :: post))))
      = some ("compatibility_minimum = \"".data ++ compat ++ ['"'], post) := by
  have h1 : (w1 ++ '=' :: (w2 ++ '"' :: (v ++ '"' :: post))).dropWhile isPySpace
      = '=' :: (w2 ++ '"' :: (v ++ '"' :: post)) :=
    dropWhile_app isPySpace w1 _ hw1 (by
      intro c hc
      simp only [List.head?_cons, Option.some.injEq] at hc
      subst hc; decide)
  have h2 : (w2 ++ '"' :: (v ++ '"' :: post)).dropWhile isPySpace
      = '"' :: (v ++ '"' :: post) :=
    dropWhile_app isPySpace w2 _ hw2 (by
      intro c hc
      simp only [List.head?_cons, Option.some.injEq] at hc
      subst hc; decide)
  have h3 : (v ++ '"' :: post).dropWhile (fun c => !(c = '"')) = '"' :: post :=
    dropWhile_app _ v _ (by intro c hc; simp [hv c hc]) (by
      intro c hc
      simp only [List.head?_cons, Option.some.injEq] at hc
      subst hc; simp)
  simp only [matchCompat, dropLit_self, Option.some_bind, h1, h2, h3, expectChar_self]

theorem matchBranch_success (w1 w2 post : List Char) (vc : Char) (v' : List Char)
    (hw1 : ∀ c ∈ w1, isPySpace c = true) (hw2 : ∀ c ∈ w2, isPySpace c = true)
    (hv : ∀ c ∈ vc :: v', isPySpace c = false)
    (hpost : ∀ c, post.head? = some c → isPySpace c = true) :
    matchBranch ("branch".data ++ (w1 ++ '=' :: (w2 ++ vc :: (v' ++ post))))
      = some ("branch".data ++ w1 ++ '=' :: w2 ++ "master".data, post) := by
  have hvc := hv vc (by simp)
  have h1 : (w1 ++ '=' :: (w2 ++ vc :: (v' ++ post))).dropWhile isPySpace
      = '=' :: (w2 ++ vc :: (v' ++ post)) :=
    dropWhile_app isPySpace w1 _ hw1 (by
      intro c hc
      simp only [List.head?_cons, Option.some.injEq] at hc
      subst hc; decide)
  have h1t : (w1 ++ '=' :: (w2 ++ vc :: (v' ++ post))).takeWhile isPySpace = w1 :=
    takeWhile_app isPySpace w1 _ hw1 (by
      intro c hc
      simp only [List.head?_cons, Option.some.injEq] at hc
      subst hc; decide)
  have h2 : (w2 ++ vc :: (v' ++ post)).dropWhile isPySpace = vc :: (v' ++ post) :=
    dropWhile_app isPySpace w2 _ hw2 (by
      intro c hc
      simp only [List.head?_cons, Option.some.injEq] at hc
      subst hc; exact hvc)
  have h2t : (w2 ++ vc :: (v' ++ post)).takeWhile isPySpace = w2 :=
    takeWhile_app isPySpace w2 _ hw2 (by
      intro c hc
      simp only [List.head?_cons, Option.some.injEq] at hc
      subst hc; exact hvc)
  have h3 : ((vc :: v') ++ post).dropWhile (fun x => !isPySpace x) = post :=
    dropWhile_app _ (vc :: v') post (by intro c hc; simp [hv c hc]) (by
      intro c hc
      simp [hpost c hc])
  simp only [matchBranch, dropLit_self, Option.some_bind, h1, h1t, expectChar_self,
    h2, h2t]
  rw [show vc :: (v' ++ post) = (vc :: v') ++ post from rfl, h3]

theorem matchCompat_consuming (compat : List Char) : Consuming (matchCompat compat) := by
  intro c cs r rest h
  simp only [matchCompat] at h
  cases h1 : dropLit "compatibility_minimum".data (c :: cs) with
  | none => rw [h1] at h; cases h
  | some r1 =>
    rw [h1] at h
    simp only [Option.some_bind] at h
    cases h2 : expectChar '=' (r1.dropWhile isPySpace) with
    | none => rw [h2] at h; cases h
    | some r3 =>
      rw [h2] at h
      simp only [Option.some_bind] at h
      cases h3 : expectChar '"' (r3.dropWhile isPySpace) with
      | none => rw [h3] at h; cases h
      | some r5 =>
        rw [h3] at h
        simp only [Option.some_bind] at h
        cases h4 : expectChar '"' (r5.dropWhile (fun c => !(c = '"'))) with
        | none => rw [h4] at h; cases h
        | some r7 =>
          rw [h4] at h
          simp only [Option.some_bind, Option.some.injEq, Prod.mk.injEq] at h
          obtain ⟨-, hrest⟩ := h
          subst hrest
          have e1 : r1.length ≤ cs.length := by
            rw [show "compatibility_minimum".data
                 = 'c' :: "ompatibility_minimum".data from rfl] at h1
            simp only [dropLit] at h1
            split at h1
            · exact dropLit_length_le _ _ _ h1
            · cases h1
          have e2 := expectChar_length_le '=' _ _ h2
          have e3 := expectChar_length_le '"' _ _ h3
          have e4 := expectChar_length_le '"' _ _ h4
          have d1 := dropWhile_length_le isPySpace r1
          have d2 := dropWhile_length_le isPySpace r3
          have d3 := dropWhile_length_le (fun c => !(c = '"')) r5
          omega

theorem matchBranch_consuming : Consuming matchBranch := by
  intro c cs r rest h
  simp only [matchBranch] at h
  cases h1 : dropLit "branch".data (c :: cs) with
  | none => rw [h1] at h; cases h
  | some r1 =>
    rw [h1] at h
    simp only [Option.some_bind] at h
    cases h2 : expectChar '=' (r1.dropWhile isPySpace) with
    | none => rw [h2] at h; cases h
    | some r3 =>
      rw [h2] at h
      simp only [Option.some_bind] at h
      cases h3 : r3.dropWhile isPySpace with
      | nil => rw [h3] at h; cases h
      | cons vc r5 =>
        rw [h3] at h
        simp only [Option.some.injEq, Prod.mk.injEq] at h
        obtain ⟨-, hrest⟩ := h
        subst hrest
        have e1 : r1.length ≤ cs.length := by
          rw [show "branch".data = 'b' :: "ranch".data from rfl] at h1
          simp only [dropLit] at h1
          split at h1
          · exact dropLit_length_le _ _ _ h1
          · cases h1
        have e2 := expectChar_length_le '=' _ _ h2
        have d1 := dropWhile_length_le isPySpace r1
        have d2 := dropWhile_length_le isPySpace r3
        have d3 := dropWhile_length_le (fun x => !isPySpace x) (vc :: r5)
        have hlen : (vc :: r5).length = (r3.dropWhile isPySpace).length :=
          congrArg List.length h3.symm
        simp only [List.length_cons] at hlen d3
        omega

theorem subRun_match (m : List Char → Option (List Char × List Char))
    (hm : Consuming m) :
    ∀ (cs r rest : List Char), m cs = some (r, rest) → cs ≠ [] →
      subRun m cs = r ++ subRun m rest := by
  intro cs r rest h hne
  cases cs with
  | nil => cases hne rfl
  | cons c cs' => exact subRun_cons_some m hm c cs' r rest h

/-- One whitespace-tolerant `compatibility_minimum` occurrence is rewritten to
the normalized replacement; scanning then continues after it.  The text before
it is arbitrary, as long as no occurrence of the key literal starts inside
it. -/
theorem subRun_compat_entry (compat pre w1 w2 v post : List Char)
    (hpre : ∀ i < pre.length,
      "compatibility_minimum".data.isPrefixOf
        ((pre ++ ("compatibility_minimum".data
            ++ (w1 ++ '=' :: (w2 ++ '"' :: (v ++ '"' :: post))))).drop i) = false)
    (hw1 : ∀ c ∈ w1, isPySpace c = true) (hw2 : ∀ c ∈ w2, isPySpace c = true)
    (hv : ∀ c ∈ v, c ≠ '"') :
    subRun (matchCompat compat)
        (pre ++ ("compatibility_minimum".data ++ (w1 ++ '=' :: (w2 ++ '"' :: (v ++ '"' :: post)))))
      = pre ++ ("compatibility_minimum = \"".data ++ (compat ++ '"' :: subRun (matchCompat compat) post)) := by
  rw [subRun_append_skip_occ (matchCompat compat) "compatibility_minimum".data
        (matchCompat_starts_key compat) pre _ hpre]
  rw [subRun_match (matchCompat compat) (matchCompat_consuming compat) _ _ _
        (matchCompat_success compat w1 w2 v post hw1 hw2 hv)
        (by rw [show "compatibility_minimum".data
                 = 'c' :: "ompatibility_minimum".data from rfl]; simp)]
  simp [List.append_assoc]

/-- One whitespace-tolerant `branch` occurrence keeps its captured key text and
gets its value replaced by `master`; scanning then continues after the value.
The text before it is arbitrary, as long as no occurrence of the key literal
starts inside it. -/
theorem subRun_branch_entry (pre w1 w2 post : List Char) (vc : Char) (v' : List Char)
    (hpre : ∀ i < pre.length,
      "branch".data.isPrefixOf
        ((pre ++ ("branch".data ++ (w1 ++ '=' :: (w2 ++ vc :: (v' ++ post))))).drop i) = false)
    (hw1 : ∀ c ∈ w1, isPySpace c = true) (hw2 : ∀ c ∈ w2, isPySpace c = true)
    (hv : ∀ c ∈ vc :: v', isPySpace c = false)
    (hpost : ∀ c, post.head? = some c → isPySpace c = true) :
    subRun matchBranch (pre ++ ("branch".data ++ (w1 ++ '=' :: (w2 ++ vc :: (v' ++ post)))))
      = pre ++ ("branch".data ++ (w1 ++ '=' :: (w2 ++ ("master".data ++ subRun matchBranch post)))) := by
  rw [subRun_append_skip_occ matchBranch "branch".data
        matchBranch_starts_key pre _ hpre]
  rw [subRun_match matchBranch matchBranch_consuming _ _ _
        (matchBranch_success w1 w2 post vc v' hw1 hw2 hv hpost)
        (by rw [show "branch".data = 'b' :: "ranch".data from rfl]; simp)]
  simp [List.append_assoc]

/-! Helper lemmas about the filesystem model, line splitting and paths. -/

theorem FS.read_write_self (fs : FS) (p c : String) : (fs.write p c).read p = some c := by
  induction fs with
  | nil => simp [FS.write, FS.read]
  | cons e rest ih =>
    obtain ⟨q, d⟩ := e
    by_cases h : q = p
    · subst h; simp [FS.write, FS.read]
    · simp [FS.write, FS.read, h, ih]

theorem FS.read_write_ne (fs : FS) (p c q : String) (h : p ≠ q) :
    (fs.write p c).read q = fs.read q := by
  induction fs with
  | nil => simp [FS.write, FS.read, h]
  | cons e rest ih =>
    obtain ⟨x, d⟩ := e
    by_cases hx : x = p
    · subst hx; simp [FS.write, FS.read, h]
    · simp [FS.write, FS.read, hx, ih]

theorem splitKeepNl_no_nl :
    ∀ (cs acc : List Char), (∀ c ∈ cs, c ≠ '\n') →
      splitKeepNl acc (cs ++ ['\n']) = [acc.reverse ++ cs ++ ['\n']] := by
  intro cs
  induction cs with
  | nil => intro acc _; simp [splitKeepNl]
  | cons c cs' ih =>
    intro acc h
    have hc : c ≠ '\n' := h c (by simp)
    simp only [List.cons_append, splitKeepNl, hc, if_neg, if_false, List.append_eq]
    rw [ih (c :: acc) (fun x hx => h x (by simp [hx]))]
    simp [List.append_assoc]

theorem pyReadlines_single (ident : String) (h : ∀ c ∈ ident.data, c ≠ '\n') :
    pyReadlines (ident ++ "\n") = [ident ++ "\n"] := by
  show (splitKeepNl [] (ident.data ++ ['\n'])).map (fun l => (⟨l⟩ : String)) = _
  rw [splitKeepNl_no_nl ident.data [] h]
  simp only [List.map, List.reverse_nil, List.nil_append]
  exact congrArg (fun x => [x]) (String.ext rfl)

/-- Unfolding of `update_dont_touch` on a file of at least two lines. -/
theorem update_dont_touch_two (fs : FS) (path v content l0 l1 : String)
    (rest : List String)
    (hread : fs.read path = some content)
    (hlines : pyReadlines content = l0 :: l1 :: rest) :
    update_dont_touch fs path v
      = (fs.write path (String.join (l0 :: (v ++ "\n") :: rest)),
         some (pyLower (pyStrip l0))) := by
  simp only [update_dont_touch, hread, hlines]
  rw [if_neg (by simp)]
  simp [List.set]

theorem strAppend_cancel (r a b : String) (h : r ++ a = r ++ b) : a = b := by
  apply String.ext
  exact List.append_cancel_left (congrArg String.data h)

theorem getLast_append_right (a b : List Char) (h : b ≠ []) :
    (a ++ b).getLast? = b.getLast? := by
  rw [List.getLast?_append]
  cases hb : b.getLast? with
  | none =>
    have hs := List.getLast?_isSome.mpr h
    rw [hb] at hs; cases hs
  | some x => rfl

theorem strEndsWith_gdext_last (f : String)
    (h : strEndsWith f ".gdextension" = true) : f.data.getLast? = some 'n' := by
  unfold strEndsWith at h
  rw [show (".gdextension" : String).data.reverse = 'n' :: "oisnetxedg.".data
       from by decide] at h
  cases hr : f.data.reverse with
  | nil => rw [hr] at h; cases h
  | cons b bs =>
    rw [hr] at h
    simp only [List.isPrefixOf, Bool.and_eq_true, beq_iff_eq] at h
    rw [← List.head?_reverse, hr, h.1]
    rfl

/-- Inversion for the fallback walk: a found path always comes from a
directory whose path does not contain `"godot-cpp"`, joined with the first of
its files whose name ends in `.gdextension`. -/
theorem walkFind_inv :
    ∀ (walk : List (String × List String)) (p : String), walkFind walk = some p →
      ∃ r files f, (r, files) ∈ walk ∧ strContains r "godot-cpp" = false ∧
        files.find? (fun f => strEndsWith f ".gdextension") = some f ∧
        p = r ++ "/" ++ f := by
  intro walk
  induction walk with
  | nil => intro p h; cases h
  | cons e rest ih =>
    obtain ⟨r, files⟩ := e
    intro p h
    simp only [walkFind] at h
    by_cases hr : strContains r "godot-cpp" = true
    · rw [if_pos hr] at h
      obtain ⟨r', files', f, hmem, h1, h2, h3⟩ := ih p h
      exact ⟨r', files', f, List.mem_cons_of_mem _ hmem, h1, h2, h3⟩
    · rw [if_neg hr] at h
      cases hf : files.find? (fun f => strEndsWith f ".gdextension") with
      | some f =>
        rw [hf] at h
        injection h with h
        exact ⟨r, files, f, List.mem_cons_self _ _,
          Bool.not_eq_true _ ▸ hr, hf, h.symm⟩
      | none =>
        rw [hf] at h
        obtain ⟨r', files', f, hmem, h1, h2, h3⟩ := ih p h
        exact ⟨r', files', f, List.mem_cons_of_mem _ hmem, h1, h2, h3⟩

/-- Any path that `locateGdext` returns comes from one of the two fixed
candidates or from the walk. -/
theorem locateGdext_cases (fs : FS) (walk : List (String × List String))
    (root name p : String) (h : locateGdext fs walk root name = some p) :
    p = root ++ "/test_project/" ++ name ++ "/" ++ name ++ ".gdextension"
    ∨ p = root ++ "/" ++ name ++ "/" ++ name ++ ".gdextension"
    ∨ walkFind walk = some p := by
  unfold locateGdext at h
  split at h
  next c hc =>
    have hmem := List.mem_of_find?_eq_some hc
    injection h with h
    subst h
    simp only [List.mem_cons, List.not_mem_nil, or_false] at hmem
    rcases hmem with h' | h'
    · exact Or.inl h'
    · exact Or.inr (Or.inl h')
  next => exact Or.inr (Or.inr h)

/-- Every path `locateGdext` can return ends in the letter `n` (it ends in
`.gdextension`). -/
theorem locateGdext_last (fs : FS) (walk : List (String × List String))
    (root name p : String) (h : locateGdext fs walk root name = some p) :
    p.data.getLast? = some 'n' := by
  rcases locateGdext_cases fs walk root name p h with h' | h' | h'
  · subst h'
    rw [show (root ++ "/test_project/" ++ name ++ "/" ++ name ++ ".gdextension").data
         = (root ++ "/test_project/" ++ name ++ "/" ++ name).data
             ++ (".gdextension" : String).data from rfl]
    rw [getLast_append_right _ _ (by decide)]
    decide
  · subst h'
    rw [show (root ++ "/" ++ name ++ "/" ++ name ++ ".gdextension").data
         = (root ++ "/" ++ name ++ "/" ++ name).data
             ++ (".gdextension" : String).data from rfl]
    rw [getLast_append_right _ _ (by decide)]
    decide
  · obtain ⟨r, files, f, _, _, hfind, hp⟩ := walkFind_inv walk p h'
    have hend := List.find?_some hfind
    have hlast := strEndsWith_gdext_last f hend
    subst hp
    rw [show (r ++ "/" ++ f).data = (r ++ "/").data ++ f.data from rfl]
    rw [getLast_append_right _ _ (by
      intro hnil
      rw [hnil] at hlast
      cases hlast)]
    exact hlast

/-- `update_gdextension` never touches a file whose path does not end in the
letter `n`; in particular neither `dont_touch.txt` nor `.gitmodules`. -/
theorem update_gdextension_read_other (fs : FS) (walk : List (String × List String))
    (root name compat q : String) (hq : q.data.getLast? ≠ some 'n') :
    FS.read (update_gdextension fs walk root name compat) q = fs.read q := by
  cases hl : locateGdext fs walk root name with
  | none => unfold update_gdextension; rw [hl]
  | some p =>
    unfold update_gdextension
    rw [hl]
    show (match fs.read p with
          | none => fs
          | some content => fs.write p (pySubCompat compat content)).read q
        = fs.read q
    cases hc : fs.read p with
    | none => rfl
    | some content =>
      refine FS.read_write_ne fs p _ q (fun hpq => hq ?_)
      rw [← hpq]
      exact locateGdext_last fs walk root name p hl

/-! Claim theorems. -/

/-- C1 counterexample: for a manifest with no whitespace around `=`, the
claim as stated predicts `compatibility_minimum="4.6"` (original spacing
preserved), but the editor produces the normalized
`compatibility_minimum = "4.6"` — the original whitespace around `=` is not
preserved. -/
theorem C1_whitespace_counterexample :
    update_gdextension
        [("root/myplugin/myplugin.gdextension", "compatibility_minimum=\"4.5\"\n")]
        [] "root" "myplugin" "4.6"
      = [("root/myplugin/myplugin.gdextension", "compatibility_minimum = \"4.6\"\n")]
    ∧ ("compatibility_minimum = \"4.6\"\n" : String)
        ≠ "compatibility_minimum=\"4.6\"\n" :=
  ⟨by decide, by decide⟩

/-- C1 (amended): the manifest editor rewrites a whitespace-tolerant
`compatibility_minimum` key and its quoted value to the normalized text
`compatibility_minimum = "<compat>"` — exactly one space on each side of
`=` — preserving everything before the match and continuing the same
replacement over the remainder after it. -/
theorem C1_compat_normalized (pre w1 w2 v post compat : String)
    (hpre : ∀ i < pre.data.length,
      "compatibility_minimum".data.isPrefixOf
        ((pre ++ "compatibility_minimum" ++ w1 ++ "=" ++ w2 ++ "\"" ++ v ++ "\"" ++ post).data.drop i)
        = false)
    (hw1 : ∀ c ∈ w1.data, isPySpace c = true)
    (hw2 : ∀ c ∈ w2.data, isPySpace c = true)
    (hv : ∀ c ∈ v.data, c ≠ '"') :
    pySubCompat compat
        (pre ++ "compatibility_minimum" ++ w1 ++ "=" ++ w2 ++ "\"" ++ v ++ "\"" ++ post)
      = pre ++ "compatibility_minimum = \"" ++ compat ++ "\"" ++ pySubCompat compat post := by
  have hL : (pre ++ "compatibility_minimum" ++ w1 ++ "=" ++ w2 ++ "\"" ++ v ++ "\"" ++ post).data
      = pre.data ++ ("compatibility_minimum".data
          ++ (w1.data ++ '=' :: (w2.data ++ '"' :: (v.data ++ '"' :: post.data)))) := by
    show pre.data ++ "compatibility_minimum".data ++ w1.data ++ ("=" : String).data
        ++ w2.data ++ ("\"" : String).data ++ v.data ++ ("\"" : String).data ++ post.data = _
    rw [show ("=" : String).data = ['='] from rfl,
        show ("\"" : String).data = ['"'] from rfl]
    simp [List.append_assoc]
  have hpre' : ∀ i < pre.data.length,
      "compatibility_minimum".data.isPrefixOf
        ((pre.data ++ ("compatibility_minimum".data
            ++ (w1.data ++ '=' :: (w2.data ++ '"' :: (v.data ++ '"' :: post.data))))).drop i)
        = false := by
    intro i hi
    have h := hpre i hi
    rwa [hL] at h
  apply String.ext
  show subRun (matchCompat compat.data)
      (pre.data ++ "compatibility_minimum".data ++ w1.data ++ ("=" : String).data
        ++ w2.data ++ ("\"" : String).data ++ v.data ++ ("\"" : String).data ++ post.data)
    = pre.data ++ "compatibility_minimum = \"".data ++ compat.data
        ++ ("\"" : String).data ++ subRun (matchCompat compat.data) post.data
  have key := subRun_compat_entry compat.data pre.data w1.data w2.data v.data post.data
      hpre' hw1 hw2 hv
  rw [show ("=" : String).data = ['='] from rfl,
      show ("\"" : String).data = ['"'] from rfl]
  simpa [List.append_assoc] using key

/-- C1 witness: a manifest with a realistic `[configuration]` section before
the key (and no whitespace around `=`) is rewritten to the normalized form. -/
theorem C1_compat_normalized_witness :
    pySubCompat "4.6"
        ("[configuration]\nentry_symbol = \"example_init\"\n" ++ "compatibility_minimum"
          ++ "" ++ "=" ++ "" ++ "\"" ++ "4.5" ++ "\"" ++ "\n")
      = "[configuration]\nentry_symbol = \"example_init\"\n"
          ++ "compatibility_minimum = \"" ++ "4.6" ++ "\"" ++ pySubCompat "4.6" "\n" :=
  C1_compat_normalized "[configuration]\nentry_symbol = \"example_init\"\n" "" "" "4.5" "\n" "4.6"
    (by decide) (by decide) (by decide) (by decide)

/-- C3: on a single-line version-marker file the editor leaves the
filesystem untouched (it performs no write) and returns the line's
identifier unmodified — stripped of its line terminator but, unlike the
two-line path, not lower-cased. -/
theorem C3_single_line (fs : FS) (path ident v : String)
    (hread : fs.read path = some (ident ++ "\n"))
    (hnl : ∀ c ∈ ident.data, c ≠ '\n')
    (hstrip : pyStrip (ident ++ "\n") = ident) :
    update_dont_touch fs path v = (fs, some ident) := by
  simp only [update_dont_touch, hread, pyReadlines_single ident hnl]
  rw [if_pos (by simp)]
  simp [hstrip]

/-- C3 witness: a one-line marker file is left byte-identical and its
identifier comes back with its original capitalization. -/
theorem C3_single_line_witness :
    update_dont_touch [("r/dont_touch.txt", "MyPlugin\n")] "r/dont_touch.txt" "4.6"
      = ([("r/dont_touch.txt", "MyPlugin\n")], some "MyPlugin") :=
  C3_single_line [("r/dont_touch.txt", "MyPlugin\n")] "r/dont_touch.txt" "MyPlugin" "4.6"
    (by decide) (by decide) (by decide)

/-- C5: on a version-marker file of at least two lines, the editor rewrites
exactly line 2 to the new version string plus newline, keeps line 1 and all
later lines, writes the file back, and returns line 1 stripped and
lower-cased. -/
theorem C5_two_lines (fs : FS) (path v content l0 l1 : String) (rest : List String)
    (hread : fs.read path = some content)
    (hlines : pyReadlines content = l0 :: l1 :: rest) :
    update_dont_touch fs path v
      = (fs.write path (String.join (l0 :: (v ++ "\n") :: rest)),
         some (pyLower (pyStrip l0))) :=
  update_dont_touch_two fs path v content l0 l1 rest hread hlines

/-- C5 witness: a three-line marker file gets only its second line replaced
and yields the lower-cased first-line identifier. -/
theorem C5_two_lines_witness :
    update_dont_touch [("d", "MyPlugin\n4.5\nextra\n")] "d" "9.9"
      = ([("d", "MyPlugin\n9.9\nextra\n")], some "myplugin") := by
  have h := C5_two_lines [("d", "MyPlugin\n4.5\nextra\n")] "d" "9.9"
      "MyPlugin\n4.5\nextra\n" "MyPlugin\n" "4.5\n" ["extra\n"] (by decide) (by decide)
  rw [h]
  decide

/-- C6: the module-mapping editor replaces the value after a
whitespace-tolerant `branch =` key with `master`, keeping the key, its exact
surrounding whitespace, everything before the key, and everything after the
value. -/
theorem C6_branch_value_replaced (fs : FS) (path pre w1 w2 v post : String)
    (hread : fs.read path = some (pre ++ "branch" ++ w1 ++ "=" ++ w2 ++ v ++ post))
    (hpre : ∀ i < pre.data.length,
      "branch".data.isPrefixOf
        ((pre ++ "branch" ++ w1 ++ "=" ++ w2 ++ v ++ post).data.drop i) = false)
    (hw1 : ∀ c ∈ w1.data, isPySpace c = true)
    (hw2 : ∀ c ∈ w2.data, isPySpace c = true)
    (hvne : v ≠ "") (hv : ∀ c ∈ v.data, isPySpace c = false)
    (hpost : ∀ c, post.data.head? = some c → isPySpace c = true) :
    update_gitmodules fs path
      = fs.write path (pre ++ "branch" ++ w1 ++ "=" ++ w2 ++ "master" ++ pySubBranch post) := by
  unfold update_gitmodules
  rw [hread]
  show fs.write path (pySubBranch (pre ++ "branch" ++ w1 ++ "=" ++ w2 ++ v ++ post)) = _
  refine congrArg (fs.write path) ?_
  apply String.ext
  obtain ⟨vc, v', hv'⟩ : ∃ vc v', v.data = vc :: v' := by
    cases hvd : v.data with
    | nil => exact absurd (show v = "" from String.ext hvd) hvne
    | cons a b => exact ⟨a, b, rfl⟩
  have hL : (pre ++ "branch" ++ w1 ++ "=" ++ w2 ++ v ++ post).data
      = pre.data ++ ("branch".data
          ++ (w1.data ++ '=' :: (w2.data ++ vc :: (v' ++ post.data)))) := by
    show pre.data ++ "branch".data ++ w1.data ++ ("=" : String).data
        ++ w2.data ++ v.data ++ post.data = _
    rw [hv', show ("=" : String).data = ['='] from rfl]
    simp [List.append_assoc]
  have hpre' : ∀ i < pre.data.length,
      "branch".data.isPrefixOf
        ((pre.data ++ ("branch".data
            ++ (w1.data ++ '=' :: (w2.data ++ vc :: (v' ++ post.data))))).drop i) = false := by
    intro i hi
    have h := hpre i hi
    rwa [hL] at h
  show subRun matchBranch
      (pre.data ++ "branch".data ++ w1.data ++ ("=" : String).data ++ w2.data
        ++ v.data ++ post.data)
    = pre.data ++ "branch".data ++ w1.data ++ ("=" : String).data ++ w2.data
        ++ "master".data ++ subRun matchBranch post.data
  have key := subRun_branch_entry pre.data w1.data w2.data post.data vc v'
      hpre' hw1 hw2 (hv' ▸ hv) hpost
  rw [hv', show ("=" : String).data = ['='] from rfl]
  simpa [List.append_assoc] using key

/-- C6 witness: a realistic `.gitmodules` — `[submodule ...]` header and
`path = ...` line before the branch key — has exactly its branch value
replaced. -/
theorem C6_branch_value_replaced_witness :
    update_gitmodules
        [("r/.gitmodules",
          "[submodule \"godot-cpp\"]\n\tpath = godot-cpp\n\tbranch = old-name\n")]
        "r/.gitmodules"
      = [("r/.gitmodules",
          "[submodule \"godot-cpp\"]\n\tpath = godot-cpp\n\tbranch = master\n")] := by
  have h := C6_branch_value_replaced
      [("r/.gitmodules",
        "[submodule \"godot-cpp\"]\n\tpath = godot-cpp\n\tbranch = old-name\n")]
      "r/.gitmodules" "[submodule \"godot-cpp\"]\n\tpath = godot-cpp\n\t"
      " " " " "old-name" "\n"
      (by decide) (by decide) (by decide) (by decide) (by decide) (by decide)
      (by
        intro c hc
        rw [show ("\n" : String).data = ['\n'] from rfl] at hc
        simp only [List.head?_cons, Option.some.injEq] at hc
        subst hc
        decide)
  rw [h]
  decide

/-- C9: the single `re.sub` pass rewrites every `branch =` occurrence, not
only the first: a file with two entries gets both values replaced by
`master`. -/
theorem C9_all_branches (pre w1 w2 v1 mid w3 w4 v2 post : String)
    (hpre : ∀ i < pre.data.length,
      "branch".data.isPrefixOf
        ((pre ++ "branch" ++ w1 ++ "=" ++ w2 ++ v1
            ++ mid ++ "branch" ++ w3 ++ "=" ++ w4 ++ v2 ++ post).data.drop i) = false)
    (hw1 : ∀ c ∈ w1.data, isPySpace c = true)
    (hw2 : ∀ c ∈ w2.data, isPySpace c = true)
    (hv1ne : v1 ≠ "") (hv1 : ∀ c ∈ v1.data, isPySpace c = false)
    (hmid : ∀ i < mid.data.length,
      "branch".data.isPrefixOf
        ((mid ++ "branch" ++ w3 ++ "=" ++ w4 ++ v2 ++ post).data.drop i) = false)
    (hmidc : ∃ c mrest, mid.data = c :: mrest ∧ isPySpace c = true)
    (hw3 : ∀ c ∈ w3.data, isPySpace c = true)
    (hw4 : ∀ c ∈ w4.data, isPySpace c = true)
    (hv2ne : v2 ≠ "") (hv2 : ∀ c ∈ v2.data, isPySpace c = false)
    (hpost : ∀ c, post.data.head? = some c → isPySpace c = true) :
    pySubBranch (pre ++ "branch" ++ w1 ++ "=" ++ w2 ++ v1
        ++ mid ++ "branch" ++ w3 ++ "=" ++ w4 ++ v2 ++ post)
      = pre ++ "branch" ++ w1 ++ "=" ++ w2 ++ "master"
        ++ mid ++ "branch" ++ w3 ++ "=" ++ w4 ++ "master" ++ pySubBranch post := by
  apply String.ext
  obtain ⟨vc1, v1', hv1'⟩ : ∃ vc v', v1.data = vc :: v' := by
    cases hvd : v1.data with
    | nil => exact absurd (show v1 = "" from String.ext hvd) hv1ne
    | cons a b => exact ⟨a, b, rfl⟩
  obtain ⟨vc2, v2', hv2'⟩ : ∃ vc v', v2.data = vc :: v' := by
    cases hvd : v2.data with
    | nil => exact absurd (show v2 = "" from String.ext hvd) hv2ne
    | cons a b => exact ⟨a, b, rfl⟩
  obtain ⟨mc, mrest, hmidc', hmc⟩ := hmidc
  have hL2 : (mid ++ "branch" ++ w3 ++ "=" ++ w4 ++ v2 ++ post).data
      = mid.data ++ ("branch".data
          ++ (w3.data ++ '=' :: (w4.data ++ vc2 :: (v2' ++ post.data)))) := by
    show mid.data ++ "branch".data ++ w3.data ++ ("=" : String).data
        ++ w4.data ++ v2.data ++ post.data = _
    rw [hv2', show ("=" : String).data = ['='] from rfl]
    simp [List.append_assoc]
  have hmid' : ∀ i < mid.data.length,
      "branch".data.isPrefixOf
        ((mid.data ++ ("branch".data
            ++ (w3.data ++ '=' :: (w4.data ++ vc2 :: (v2' ++ post.data))))).drop i) = false := by
    intro i hi
    have h := hmid i hi
    rwa [hL2] at h
  have key2 := subRun_branch_entry mid.data w3.data w4.data post.data vc2 v2'
      hmid' hw3 hw4 (hv2' ▸ hv2) hpost
  have hL1 : (pre ++ "branch" ++ w1 ++ "=" ++ w2 ++ v1
        ++ mid ++ "branch" ++ w3 ++ "=" ++ w4 ++ v2 ++ post).data
      = pre.data ++ ("branch".data ++ (w1.data ++ '=' :: (w2.data ++ vc1 ::
          (v1' ++ (mid.data ++ ("branch".data
            ++ (w3.data ++ '=' :: (w4.data ++ vc2 :: (v2' ++ post.data))))))))) := by
    show pre.data ++ "branch".data ++ w1.data ++ ("=" : String).data ++ w2.data ++ v1.data
        ++ mid.data ++ "branch".data ++ w3.data ++ ("=" : String).data ++ w4.data
        ++ v2.data ++ post.data = _
    rw [hv1', hv2', show ("=" : String).data = ['='] from rfl]
    simp [List.append_assoc]
  have hpre' : ∀ i < pre.data.length,
      "branch".data.isPrefixOf
        ((pre.data ++ ("branch".data ++ (w1.data ++ '=' :: (w2.data ++ vc1 ::
            (v1' ++ (mid.data ++ ("branch".data
              ++ (w3.data ++ '=' :: (w4.data ++ vc2 :: (v2' ++ post.data)))))))))).drop i)
        = false := by
    intro i hi
    have h := hpre i hi
    rwa [hL1] at h
  have key1 := subRun_branch_entry pre.data w1.data w2.data
      (mid.data ++ ("branch".data ++ (w3.data ++ '=' :: (w4.data ++ vc2 :: (v2' ++ post.data)))))
      vc1 v1' hpre' hw1 hw2 (hv1' ▸ hv1)
      (by
        intro c hc
        rw [hmidc'] at hc
        simp only [List.cons_append, List.head?_cons, Option.some.injEq] at hc
        subst hc
        exact hmc)
  rw [key2] at key1
  show subRun matchBranch
      (pre.data ++ "branch".data ++ w1.data ++ ("=" : String).data ++ w2.data ++ v1.data
        ++ mid.data ++ "branch".data ++ w3.data ++ ("=" : String).data ++ w4.data
        ++ v2.data ++ post.data)
    = pre.data ++ "branch".data ++ w1.data ++ ("=" : String).data ++ w2.data
        ++ "master".data ++ mid.data ++ "branch".data ++ w3.data
        ++ ("=" : String).data ++ w4.data ++ "master".data
        ++ subRun matchBranch post.data
  rw [hv1', hv2', show ("=" : String).data = ['='] from rfl]
  simpa [List.append_assoc] using key1

/-- C9 witness: a realistic two-entry `.gitmodules` — both entries headed by
`[submodule ...]` sections — has both branch values rewritten in one pass. -/
theorem C9_all_branches_witness :
    pySubBranch ("[submodule \"a\"]\n\t" ++ "branch" ++ " " ++ "=" ++ " " ++ "dev"
        ++ "\n[submodule \"b\"]\n\t" ++ "branch" ++ " " ++ "=" ++ " " ++ "4.x" ++ "\n")
      = "[submodule \"a\"]\n\t" ++ "branch" ++ " " ++ "=" ++ " " ++ "master"
        ++ "\n[submodule \"b\"]\n\t" ++ "branch" ++ " " ++ "=" ++ " " ++ "master"
        ++ pySubBranch "\n" :=
  C9_all_branches "[submodule \"a\"]\n\t" " " " " "dev" "\n[submodule \"b\"]\n\t"
    " " " " "4.x" "\n"
    (by decide) (by decide) (by decide) (by decide) (by decide) (by decide)
    ⟨'\n', "[submodule \"b\"]\n\t".data, rfl, by decide⟩ (by decide) (by decide)
    (by decide) (by decide)
    (by
      intro c hc
      rw [show ("\n" : String).data = ['\n'] from rfl] at hc
      simp only [List.head?_cons, Option.some.injEq] at hc
      subst hc
      decide)

/-- C7: with no `dont_touch.txt` under the root, the version-marker step
changes nothing and returns no plugin name, and the whole editing pipeline
reduces to the `.gitmodules` step alone — the manifest editor is never
reached. -/
theorem C7_no_marker (fs : FS) (walk : List (String × List String))
    (root compat : String)
    (h : fs.read (root ++ "/dont_touch.txt") = none) :
    update_dont_touch (update_gitmodules fs (root ++ "/.gitmodules"))
        (root ++ "/dont_touch.txt") "4.6"
      = (update_gitmodules fs (root ++ "/.gitmodules"), none)
    ∧ mainSteps fs walk root compat = update_gitmodules fs (root ++ "/.gitmodules") := by
  have hne : root ++ "/.gitmodules" ≠ root ++ "/dont_touch.txt" := by
    intro hcontra
    exact absurd (strAppend_cancel root _ _ hcontra) (by decide)
  have h1 : (update_gitmodules fs (root ++ "/.gitmodules")).read
      (root ++ "/dont_touch.txt") = none := by
    unfold update_gitmodules
    cases hg : fs.read (root ++ "/.gitmodules") with
    | none => exact h
    | some content =>
      show (fs.write (root ++ "/.gitmodules") (pySubBranch content)).read
          (root ++ "/dont_touch.txt") = none
      rw [FS.read_write_ne _ _ _ _ hne]
      exact h
  refine ⟨?_, ?_⟩
  · simp only [update_dont_touch, h1]
  · simp [mainSteps, update_dont_touch, h1, pyTruthy]

/-- C7 witness: an empty filesystem has no marker file, so the pipeline is
just the (here trivial) `.gitmodules` step. -/
theorem C7_no_marker_witness :
    update_dont_touch (update_gitmodules [] ("r" ++ "/.gitmodules"))
        ("r" ++ "/dont_touch.txt") "4.6"
      = (update_gitmodules [] ("r" ++ "/.gitmodules"), none)
    ∧ mainSteps [] [] "r" "4.6" = update_gitmodules [] ("r" ++ "/.gitmodules") :=
  C7_no_marker [] [] "r" "4.6" (by decide)

/-- C2: whatever value `--min` carries, after the pipeline the version-marker
file's second line is the literal `"4.6"` plus newline — the conclusion does
not mention `compat`, so the marker file is independent of `--min`, which
reaches only the manifest editor. -/
theorem C2_marker_always_46 (fs : FS) (walk : List (String × List String))
    (root compat content l0 l1 : String) (rest : List String)
    (hread : (update_gitmodules fs (root ++ "/.gitmodules")).read
        (root ++ "/dont_touch.txt") = some content)
    (hlines : pyReadlines content = l0 :: l1 :: rest) :
    FS.read (mainSteps fs walk root compat) (root ++ "/dont_touch.txt")
      = some (String.join (l0 :: ("4.6" ++ "\n") :: rest)) := by
  have hdt := update_dont_touch_two (update_gitmodules fs (root ++ "/.gitmodules"))
      (root ++ "/dont_touch.txt") "4.6" content l0 l1 rest hread hlines
  have hlast : (root ++ "/dont_touch.txt").data.getLast? ≠ some 'n' := by
    rw [show (root ++ "/dont_touch.txt").data
         = root.data ++ ("/dont_touch.txt" : String).data from rfl]
    rw [getLast_append_right _ _ (by decide)]
    decide
  simp only [mainSteps, hdt]
  by_cases hname : pyLower (pyStrip l0) = ""
  · simp only [pyTruthy, hname, if_pos, if_true, if_false]
    rw [if_neg (by simp)]
    exact FS.read_write_self _ _ _
  · simp only [pyTruthy, if_neg hname]
    rw [if_pos trivial]
    rw [update_gdextension_read_other _ _ _ _ _ _ hlast]
    exact FS.read_write_self _ _ _

/-- C2 witness: with `--min 9.9` the marker file still reads `4.6` on its
second line. -/
theorem C2_marker_always_46_witness :
    FS.read (mainSteps [("r/dont_touch.txt", "MyPlugin\n4.5\n")] [] "r" "9.9")
        ("r" ++ "/dont_touch.txt")
      = some (String.join ["MyPlugin\n", "4.6" ++ "\n"]) :=
  C2_marker_always_46 [("r/dont_touch.txt", "MyPlugin\n4.5\n")] [] "r" "9.9"
    "MyPlugin\n4.5\n" "MyPlugin\n" "4.5\n" [] (by decide) (by decide)

/-- C8: the manifest is located by trying
`<root>/test_project/<id>/<id>.gdextension`, then `<root>/<id>/<id>.gdextension`,
and only when neither exists the recursive walk; when nothing is found the
step modifies no file. -/
theorem C8_locate_order (fs : FS) (walk : List (String × List String))
    (root name compat : String) :
    ((fs.read (root ++ "/test_project/" ++ name ++ "/" ++ name ++ ".gdextension")).isSome = true →
      locateGdext fs walk root name
        = some (root ++ "/test_project/" ++ name ++ "/" ++ name ++ ".gdextension"))
    ∧ ((fs.read (root ++ "/test_project/" ++ name ++ "/" ++ name ++ ".gdextension")).isSome = false →
       (fs.read (root ++ "/" ++ name ++ "/" ++ name ++ ".gdextension")).isSome = true →
      locateGdext fs walk root name
        = some (root ++ "/" ++ name ++ "/" ++ name ++ ".gdextension"))
    ∧ ((fs.read (root ++ "/test_project/" ++ name ++ "/" ++ name ++ ".gdextension")).isSome = false →
       (fs.read (root ++ "/" ++ name ++ "/" ++ name ++ ".gdextension")).isSome = false →
      locateGdext fs walk root name = walkFind walk)
    ∧ (locateGdext fs walk root name = none →
      update_gdextension fs walk root name compat = fs) := by
  refine ⟨?_, ?_, ?_, ?_⟩
  · intro h1
    simp [locateGdext, List.find?_cons, h1]
  · intro h1 h2
    simp [locateGdext, List.find?_cons, h1, h2]
  · intro h1 h2
    simp [locateGdext, List.find?_cons, h1, h2]
  · intro h
    unfold update_gdextension
    rw [h]

/-- C8 witness: with the first candidate present it is chosen. -/
theorem C8_locate_order_witness :
    locateGdext [("r/test_project/p/p.gdextension", "m")] [] "r" "p"
      = some ("r" ++ "/test_project/" ++ "p" ++ "/" ++ "p" ++ ".gdextension") :=
  (C8_locate_order [("r/test_project/p/p.gdextension", "m")] [] "r" "p" "4.6").1
    (by decide)

/-- C10: the fallback walk never yields a file under a directory whose path
contains `godot-cpp` anywhere as a substring — directory names merely
containing it as part of a longer name included: prepending any such
directory to the walk cannot change the outcome. -/
theorem C10_walk_skips_godot_cpp (walk : List (String × List String))
    (p r0 : String) (files0 : List String)
    (h : walkFind walk = some p) (hr0 : strContains r0 "godot-cpp" = true) :
    (∃ r files f, (r, files) ∈ walk ∧ strContains r "godot-cpp" = false ∧
        strEndsWith f ".gdextension" = true ∧ p = r ++ "/" ++ f)
    ∧ walkFind ((r0, files0) :: walk) = some p := by
  refine ⟨?_, ?_⟩
  · obtain ⟨r, files, f, hmem, hcontains, hfind, hp⟩ := walkFind_inv walk p h
    have hend := List.find?_some hfind
    exact ⟨r, files, f, hmem, hcontains, hend, hp⟩
  · simp only [walkFind]
    rw [if_pos hr0]
    exact h

/-- C10 witness: a `godot-cpp` subtree and a directory merely containing the
substring in a longer name are both skipped. -/
theorem C10_walk_skips_godot_cpp_witness :
    ((∃ r files f,
        (r, files) ∈ [("a/godot-cpp/sub", ["x.gdextension"]), ("a/lib", ["p.gdextension"])]
        ∧ strContains r "godot-cpp" = false ∧ strEndsWith f ".gdextension" = true
        ∧ "a/lib" ++ "/" ++ "p.gdextension" = r ++ "/" ++ f)
      ∧ walkFind (("a/my-godot-cpp-fork", ["y.gdextension"])
            :: [("a/godot-cpp/sub", ["x.gdextension"]), ("a/lib", ["p.gdextension"])])
          = some ("a/lib" ++ "/" ++ "p.gdextension")) :=
  C10_walk_skips_godot_cpp
    [("a/godot-cpp/sub", ["x.gdextension"]), ("a/lib", ["p.gdextension"])]
    ("a/lib" ++ "/" ++ "p.gdextension") "a/my-godot-cpp-fork" ["y.gdextension"]
    (by decide) (by decide)

/-- C4: the process exits 0 on user interruption; otherwise it exits 1
exactly when the root is not a directory, the submodule needed initialising
and the init command failed, or the branch checkout failed — fetch, pull,
sync and clean outcomes never influence the exit code — and on exit 0 all
file-editing steps run. -/
theorem C4_exit_codes (intr : Bool) (e : CmdEnv) (fs : FS)
    (walk : List (String × List String)) (root compat : String) :
    (processExit intr e fs walk root compat = 1
      ↔ (intr = false ∧ (e.isdirRoot = false
           ∨ (e.gitMarkerPresent = false ∧ e.initOk = false)
           ∨ e.checkoutOk = false)))
    ∧ processExit true e fs walk root compat = 0
    ∧ ((mainRun e fs walk root compat).1 = 0 →
        mainRun e fs walk root compat = (0, mainSteps fs walk root compat)) := by
  obtain ⟨d, g, i, f, c, pl, s, cl⟩ := e
  cases intr <;> cases d <;> cases g <;> cases i <;> cases c <;>
    simp [processExit, mainRun]

/-- C4 witness: an invalid root exits 1; an interrupted run exits 0. -/
theorem C4_exit_codes_witness :
    processExit false ⟨false, true, true, true, true, true, true, true⟩ [] [] "r" "4.6" = 1
    ∧ processExit true ⟨false, true, true, true, true, true, true, true⟩ [] [] "r" "4.6" = 0 :=
  ⟨(C4_exit_codes false ⟨false, true, true, true, true, true, true, true⟩ [] [] "r" "4.6").1.mpr
      ⟨rfl, Or.inl rfl⟩,
   (C4_exit_codes true ⟨false, true, true, true, true, true, true, true⟩ [] [] "r" "4.6").2.1⟩

end UpgradeTool
